import Mathlib

/-!
Verification of the RSA-4096 core (Montgomery REDC modular exponentiation,
RSA key handling, text transform and binary block codec) against its
natural-language specification.

The repository sources provide the command dispatcher (main.c) and the test
harness (rsa_4096_tests.c); the cryptographic core itself (rsa_4096.c / .h)
is declared and called there but its implementation file is not part of the
source tree.  Definitions for the core are therefore modelled from the
specification text (each such definition carries a doc comment that starts
with the words Modelled from the spec), with BigInt values embedded as Nat.
The dispatcher and the harness are translated from the C sources.
-/

set_option linter.unusedVariables false
set_option maxRecDepth 10000

/-- Modelled from the spec: the error kinds of section 7.  The numeric codes of
the missing C header are abstracted by the total injection rsa_error_code below. -/
inductive rsa_error where
  | ParseError
  | InvalidKey
  | MessageTooLarge
  | BufferTooSmall
  | MalformedInput
  | Underflow
  | DivisionByZero
deriving DecidableEq

/-- Decidable equality for fallible results, used to evaluate concrete runs. -/
instance exceptDecEq {ε α : Type} [DecidableEq ε] [DecidableEq α] :
    DecidableEq (Except ε α) := fun x y =>
  match x, y with
  | .error a, .error b =>
      if h : a = b then isTrue (congrArg Except.error h)
      else isFalse (fun hc => h (Except.error.inj hc))
  | .ok a, .ok b =>
      if h : a = b then isTrue (congrArg Except.ok h)
      else isFalse (fun hc => h (Except.ok.inj hc))
  | .error _, .ok _ => isFalse (fun hc => Except.noConfusion hc)
  | .ok _, .error _ => isFalse (fun hc => Except.noConfusion hc)

/-- Width in bits of one limb of the multi-precision representation. -/
def LIMB_BITS : Nat := 32

/-- Fuel-driven helper computing the bit length of a Nat (fuel bounds the
number of halvings; fuel equal to the number itself is always enough). -/
def sizeAux : Nat → Nat → Nat
  | 0, _ => 0
  | fuel+1, n => if n = 0 then 0 else sizeAux fuel (n / 2) + 1

/-- Modelled from the spec: BigInt bit_length (section 4.1).  BigInt values are
embedded as Nat, so the limb sequence itself is abstracted away. -/
def bitLength (n : Nat) : Nat := sizeAux n n

/-- Digits of a number in a given base, least significant first (fuel-driven
structural recursion). -/
def natDigitsLSB (base : Nat) : Nat → Nat → List Nat
  | 0, _ => []
  | fuel+1, n => if n = 0 then [] else n % base :: natDigitsLSB base fuel (n / base)

/-- Digits of a number, most significant first, empty for zero. -/
def natToBase (base n : Nat) : List Nat := (natDigitsLSB base n n).reverse

/-- Value of a most-significant-first digit list. -/
def valBE (base : Nat) (l : List Nat) : Nat := l.foldl (fun v d => v * base + d) 0

/-- Character for a decimal digit. -/
def digitChar10 (d : Nat) : Char := Char.ofNat (48 + d)

/-- Character for a hexadecimal digit (lower case letters). -/
def hexDigitChar (d : Nat) : Char :=
  if d < 10 then Char.ofNat (48 + d) else Char.ofNat (87 + d)

/-- Modelled from the spec: parse_decimal (section 4.1) rejects empty input and
any non-digit character with ParseError; leading zeros are accepted. -/
def parse_decimal (s : List Char) : Except rsa_error Nat :=
  if s.isEmpty then .error .ParseError
  else if s.all Char.isDigit then
    .ok (s.foldl (fun acc c => acc * 10 + (c.toNat - 48)) 0)
  else .error .ParseError

/-- Numeric value of one hexadecimal character, case-insensitive. -/
def hexVal (c : Char) : Option Nat :=
  if c.isDigit then some (c.toNat - 48)
  else if 'a' ≤ c ∧ c ≤ 'f' then some (c.toNat - 87)
  else if 'A' ≤ c ∧ c ≤ 'F' then some (c.toNat - 55)
  else none

/-- Modelled from the spec: parse_hex (section 4.1), case-insensitive, rejects
empty input and non-hex-digit characters with ParseError. -/
def parse_hex (s : List Char) : Except rsa_error Nat :=
  if s.isEmpty then .error .ParseError
  else if s.all (fun c => (hexVal c).isSome) then
    .ok (s.foldl (fun acc c => acc * 16 + (hexVal c).getD 0) 0)
  else .error .ParseError

/-- Canonical decimal text of a value (no leading zeros). -/
def natToDecChars (n : Nat) : List Char :=
  if n = 0 then ['0'] else (natToBase 10 n).map digitChar10

/-- Canonical hexadecimal text of a value (no leading zeros, lower case). -/
def natToHexChars (n : Nat) : List Char :=
  if n = 0 then ['0'] else (natToBase 16 n).map hexDigitChar

/-- Modelled from the spec: to_decimal (section 4.1) writes into a buffer of
bounded capacity, signalling BufferTooSmall without partial output if the
canonical representation does not fit. -/
def bigint_to_decimal (x cap : Nat) : Except rsa_error (List Char) :=
  let s := natToDecChars x
  if s.length ≤ cap then .ok s else .error .BufferTooSmall

/-- Modelled from the spec: to_hex (section 4.1), capacity contract as for
to_decimal. -/
def bigint_to_hex (x cap : Nat) : Except rsa_error (List Char) :=
  let s := natToHexChars x
  if s.length ≤ cap then .ok s else .error .BufferTooSmall

/-- Modelled from the spec: MontgomeryContext (section 3), derived constants
radix_bit_length, n_prime, r_mod_n, r2_mod_n together with the activity flag. -/
structure mont_ctx_t where
  is_active : Bool
  k : Nat
  n_prime : Nat
  r_mod_n : Nat
  r2_mod_n : Nat
deriving DecidableEq

/-- The inactive context carrying no usable reduction constants. -/
def mont_ctx_inactive : mont_ctx_t := ⟨false, 0, 0, 0, 0⟩

/-- Binary lifting modular inverse: for odd n, invOdd n k is the inverse of n
modulo 2 ^ k, computed one bit at a time (the binary variant of the
extended-Euclidean inverse named by the spec, section 4.2). -/
def invOdd (n : Nat) : Nat → Nat
  | 0 => 0
  | k+1 =>
      let x := invOdd n k
      if n * x % 2 ^ (k+1) = 1 then x else x + 2 ^ k

/-- Radix exponent chosen by the context builder: the smallest multiple of the
limb width whose power of two exceeds the modulus. -/
def mont_k (n : Nat) : Nat := LIMB_BITS * ((bitLength n + (LIMB_BITS - 1)) / LIMB_BITS)

/-- Modelled from the spec: MontgomeryContext build (section 4.2).  The context
is active only for an odd modulus greater than 1 (section 3); n_prime satisfies
modulus * n_prime = -1 modulo R for R = 2 ^ mont_k. -/
def montgomery_ctx_init (n : Nat) : mont_ctx_t :=
  if n % 2 = 1 ∧ 1 < n then
    { is_active := true
      k := mont_k n
      n_prime := 2 ^ mont_k n - invOdd n (mont_k n)
      r_mod_n := 2 ^ mont_k n % n
      r2_mod_n := 2 ^ mont_k n * 2 ^ mont_k n % n }
  else mont_ctx_inactive

/-- Modelled from the spec: montgomery_multiply computes REDC of the product
(section 4.2): m = ((a*b) mod R) * n_prime mod R, t = (a*b + m*n) / R, followed
by a single conditional subtraction. -/
def mont_mul (n : Nat) (ctx : mont_ctx_t) (a b : Nat) : Nat :=
  let R := 2 ^ ctx.k
  let t := a * b
  let m := t % R * ctx.n_prime % R
  let u := (t + m * n) / R
  if n ≤ u then u - n else u

/-- Exponent bits, least significant first (fuel-driven). -/
def bitsLSBAux : Nat → Nat → List Bool
  | 0, _ => []
  | fuel+1, n => if n = 0 then [] else (n % 2 == 1) :: bitsLSBAux fuel (n / 2)

/-- Exponent bits, least significant first. -/
def bitsLSB (n : Nat) : List Bool := bitsLSBAux n n

/-- Exponent bits walked from most significant to least significant. -/
def bitsMSB (n : Nat) : List Bool := (bitsLSB n).reverse

/-- Value accumulator for a most-significant-first bit walk. -/
def bitVal (v : Nat) (bit : Bool) : Nat := 2 * v + cond bit 1 0

/-- One square-and-multiply step of the direct divide-based fallback path. -/
def sqmul_step (n b0 acc : Nat) (bit : Bool) : Nat :=
  let sq := acc * acc % n
  if bit then sq * b0 % n else sq

/-- One square-and-multiply step in the Montgomery domain. -/
def mont_step (n : Nat) (ctx : mont_ctx_t) (bM acc : Nat) (bit : Bool) : Nat :=
  let sq := mont_mul n ctx acc acc
  if bit then mont_mul n ctx sq bM else sq

/-- Modelled from the spec: modexp (section 4.2).  The base is reduced first, a
zero exponent gives 1, and the exponent bits are walked from most significant
to least significant; when the context is active the running result and base
are kept in the Montgomery domain, otherwise plain divide-based modular
multiplication is used.  A zero modulus is the internal DivisionByZero misuse. -/
def modexp (base expo n : Nat) (ctx : mont_ctx_t) : Except rsa_error Nat :=
  if n = 0 then .error .DivisionByZero
  else
    let b0 := base % n
    if expo = 0 then .ok 1
    else if ctx.is_active then
      let bM := mont_mul n ctx b0 ctx.r2_mod_n
      let rM := (bitsMSB expo).foldl (mont_step n ctx bM) ctx.r_mod_n
      .ok (mont_mul n ctx rM 1)
    else
      .ok ((bitsMSB expo).foldl (sqmul_step n b0) 1)

/-- Modelled from the spec: RSAKey (section 3): modulus, exponent, role flag
and the owned Montgomery context. -/
structure rsa_4096_key_t where
  n : Nat
  exponent : Nat
  is_private : Bool
  mont_ctx : mont_ctx_t
deriving DecidableEq

/-- Configured maximum modulus bit length (resource-exhaustion guard). -/
def RSA_MAX_MODULUS_BITS : Nat := 4096

/-- Modelled from the spec: init (section 4.3) establishes the well-defined
empty state: zero modulus, zero exponent, inactive context. -/
def rsa_4096_init : rsa_4096_key_t := ⟨0, 0, false, mont_ctx_inactive⟩

/-- Zero test on an embedded BigInt. -/
def bigint_is_zero (x : Nat) : Bool := x == 0

/-- Modelled from the spec: load_key (section 4.3): parse both decimal strings
(ParseError on malformed text), reject a zero modulus, zero exponent or an
oversized modulus with InvalidKey, then build the Montgomery context and store
the role flag. -/
def rsa_4096_load_key (modText expText : List Char) (isPriv : Bool) :
    Except rsa_error rsa_4096_key_t :=
  match parse_decimal modText with
  | .error err => .error err
  | .ok n =>
    match parse_decimal expText with
    | .error err => .error err
    | .ok e =>
      if n = 0 ∨ e = 0 ∨ RSA_MAX_MODULUS_BITS < bitLength n then
        .error .InvalidKey
      else
        .ok { n := n, exponent := e, is_private := isPriv, mont_ctx := montgomery_ctx_init n }

/-- Modelled from the spec: encrypt (section 4.4): parse the decimal message,
require m < modulus (else MessageTooLarge), exponentiate, serialize as
canonical hex with the buffer capacity contract. -/
def rsa_4096_encrypt (key : rsa_4096_key_t) (msg : List Char) (cap : Nat) :
    Except rsa_error (List Char) :=
  match parse_decimal msg with
  | .error err => .error err
  | .ok m =>
    if m < key.n then
      match modexp m key.exponent key.n key.mont_ctx with
      | .error err => .error err
      | .ok c => bigint_to_hex c cap
    else .error .MessageTooLarge

/-- Modelled from the spec: decrypt (section 4.4): parse the hex ciphertext,
require c < modulus (else MessageTooLarge), exponentiate, serialize as
canonical decimal with the buffer capacity contract. -/
def rsa_4096_decrypt (key : rsa_4096_key_t) (ct : List Char) (cap : Nat) :
    Except rsa_error (List Char) :=
  match parse_hex ct with
  | .error err => .error err
  | .ok c =>
    if c < key.n then
      match modexp c key.exponent key.n key.mont_ctx with
      | .error err => .error err
      | .ok m => bigint_to_decimal m cap
    else .error .MessageTooLarge

/-- Number of bytes needed to represent the modulus in big-endian form. -/
def byteLength (n : Nat) : Nat := (bitLength n + 7) / 8

/-- Minimal big-endian byte rendering of a value (empty for zero). -/
def natToBytesBE (n : Nat) : List Nat := natToBase 256 n

/-- Fixed-width big-endian byte field, zero-padded on the left. -/
def natToBytesBEPad (len n : Nat) : List Nat :=
  List.replicate (len - (natToBytesBE n).length) 0 ++ natToBytesBE n

/-- Big-endian numeric interpretation of a byte list. -/
def bytesToNatBE (l : List Nat) : Nat := valBE 256 l

/-- Fuel-driven splitting of a list into consecutive chunks of at most cap
elements (fuel equal to the list length always suffices when cap is positive). -/
def chunksAux (cap : Nat) : Nat → List Nat → List (List Nat)
  | 0, _ => []
  | _, [] => []
  | fuel+1, l => l.take cap :: chunksAux cap fuel (l.drop cap)

/-- Split a byte list into consecutive chunks of at most cap bytes. -/
def chunksOf (cap : Nat) (l : List Nat) : List (List Nat) := chunksAux cap l.length l

/-- Modelled from the spec: encrypt_binary (section 4.5).  With L the byte
length of the modulus and payload capacity L - 2, each chunk becomes the block
[chunk_length_byte] ++ chunk_bytes, is exponentiated and written as a
fixed-width L-byte field; BufferTooSmall (writing nothing) when the output
does not fit.  The spec leaves the codec undefined when L < 3 (the payload
capacity L - 2 would not be positive); the embedding signals InvalidKey there. -/
def rsa_4096_encrypt_binary (key : rsa_4096_key_t) (data : List Nat) (cap : Nat) :
    Except rsa_error (List Nat) :=
  let L := byteLength key.n
  if L < 3 then .error .InvalidKey
  else
    let blocks := chunksOf (L - 2) data
    if cap < blocks.length * L then .error .BufferTooSmall
    else do
      let outs ← blocks.mapM (fun ch => do
        let c ← modexp (bytesToNatBE (ch.length :: ch)) key.exponent key.n key.mont_ctx
        pure (natToBytesBEPad L c))
      pure outs.flatten

/-- Modelled from the spec: decrypt_binary (section 4.5): the ciphertext length
must be an exact multiple of L (else MalformedInput); each L-byte chunk is
exponentiated, rendered big-endian, and the leading length byte says how many
of the following bytes belong to the original payload; BufferTooSmall when the
reconstruction exceeds the capacity. -/
def rsa_4096_decrypt_binary (key : rsa_4096_key_t) (data : List Nat) (cap : Nat) :
    Except rsa_error (List Nat) :=
  let L := byteLength key.n
  if L = 0 ∨ data.length % L ≠ 0 then .error .MalformedInput
  else do
    let outs ← (chunksOf L data).mapM (fun ch => do
      let m ← modexp (bytesToNatBE ch) key.exponent key.n key.mont_ctx
      let bytes := natToBytesBE m
      pure ((bytes.drop 1).take (bytes.headD 0)))
    let out := outs.flatten
    if cap < out.length then .error .BufferTooSmall
    else pure out

/-- Composition of the binary codec: decrypt the encryption. -/
def binary_roundtrip (pub priv : rsa_4096_key_t) (data : List Nat) (cap : Nat) :
    Except rsa_error (List Nat) := do
  let enc ← rsa_4096_encrypt_binary pub data cap
  rsa_4096_decrypt_binary priv enc cap

/-- The public test key of the verification harness: n = 35, e = 5. -/
def key35_pub : rsa_4096_key_t := ⟨35, 5, false, montgomery_ctx_init 35⟩

/-- The private test key of the verification harness: n = 35, d = 5. -/
def key35_priv : rsa_4096_key_t := ⟨35, 5, true, montgomery_ctx_init 35⟩

/-- The public large-modulus test key: n = 143, e = 7. -/
def key143_pub : rsa_4096_key_t := ⟨143, 7, false, montgomery_ctx_init 143⟩

/-- The private large-modulus test key: n = 143, d = 103. -/
def key143_priv : rsa_4096_key_t := ⟨143, 103, true, montgomery_ctx_init 143⟩

/-- A public key whose modulus (4099 * 4111) occupies four bytes, so the binary
codec has a positive payload capacity. -/
def keyBin_pub : rsa_4096_key_t := ⟨16850989, 7, false, montgomery_ctx_init 16850989⟩

/-- The matching private key (7 * 4812223 = 1 modulo lcm-free phi 16842780). -/
def keyBin_priv : rsa_4096_key_t := ⟨16850989, 4812223, true, montgomery_ctx_init 16850989⟩

/-- Modelled from the spec: the numeric error codes of the missing C header are
abstract; the embedding fixes one arbitrary nonzero code per error kind, which
is all the harness relies on (it only tests the code against 0 and returns it). -/
def rsa_error_code : rsa_error → Int
  | .ParseError => -2
  | .InvalidKey => -3
  | .MessageTooLarge => -4
  | .BufferTooSmall => -5
  | .MalformedInput => -6
  | .Underflow => -7
  | .DivisionByZero => -8

/-- Digit-folding loop of atoi. -/
def atoiDigits : List Char → Nat → Nat
  | [], acc => acc
  | c :: rest, acc =>
      if c.isDigit then atoiDigits rest (acc * 10 + (c.toNat - 48)) else acc

/-- Modelled from libc atoi as used by the harness on the canonical decimal
strings the core produces: an optional sign followed by leading digits (the
harness never feeds it strings with leading whitespace). -/
def atoi_model (s : List Char) : Int :=
  match s with
  | '-' :: rest => - (atoiDigits rest 0 : Int)
  | '+' :: rest => (atoiDigits rest 0 : Int)
  | _ => (atoiDigits s 0 : Int)

/-- One test vector of run_verification (rsa_4096_tests.c, lines 87-165):
encrypt with a 1024 buffer, reject an empty result, re-parse the hex, convert
to decimal in a 512 buffer, compare via atoi against the expected value, then
decrypt into a 512 buffer, reject an empty result and compare with the
original message text. -/
def verify_vector (pub priv : rsa_4096_key_t) (msg : List Char) (expected : Int) : Bool :=
  match rsa_4096_encrypt pub msg 1024 with
  | .error _ => false
  | .ok encHex =>
    if encHex.isEmpty then false
    else
      match parse_hex encHex with
      | .error _ => false
      | .ok encVal =>
        match bigint_to_decimal encVal 512 with
        | .error _ => false
        | .ok encDec =>
          if atoi_model encDec = expected then
            match rsa_4096_decrypt priv encHex 512 with
            | .error _ => false
            | .ok decMsg => if decMsg.isEmpty then false else decMsg == msg
          else false

/-- run_verification (rsa_4096_tests.c, lines 16-181) generalized over the key
text the harness hardcodes: load the public and private keys (propagating a
load error code), return -1 on (dead) zero-key checks, run the three vectors
counting passes, and return 0 exactly when all three passed, -1 otherwise. -/
def run_verification_gen (nT eT dT : List Char) : Int :=
  match rsa_4096_load_key nT eT false with
  | .error e => rsa_error_code e
  | .ok pub =>
    match rsa_4096_load_key nT dT true with
    | .error e => rsa_error_code e
    | .ok priv =>
      if bigint_is_zero pub.n || bigint_is_zero pub.exponent then -1
      else if bigint_is_zero priv.n || bigint_is_zero priv.exponent then -1
      else
        let tests : List (List Char × Int) := [(['2'], 32), (['3'], 33), (['4'], 9)]
        let passed := (tests.filter (fun t => verify_vector pub priv t.1 t.2)).length
        if passed = 3 then 0 else -1

/-- run_verification with the hardcoded key text n = 35, e = 5, d = 5. -/
def run_verification : Int := run_verification_gen ['3','5'] ['5'] ['5']

/-- test_large_rsa_keys (rsa_4096_tests.c, lines 184-265): n = 143, e = 7,
d = 103; encrypt the message 42, decrypt it back and compare. -/
def test_large_rsa_keys : Int :=
  match rsa_4096_load_key ['1','4','3'] ['7'] false with
  | .error e => rsa_error_code e
  | .ok pub =>
    match rsa_4096_load_key ['1','4','3'] ['1','0','3'] true with
    | .error e => rsa_error_code e
    | .ok priv =>
      match rsa_4096_encrypt pub ['4','2'] 1024 with
      | .error e => rsa_error_code e
      | .ok encHex =>
        match rsa_4096_decrypt priv encHex 512 with
        | .error e => rsa_error_code e
        | .ok decMsg => if decMsg == ['4','2'] then 0 else -1

/-- run_benchmarks (rsa_4096_tests.c, lines 267-325): loads the n = 35, e = 5
key (propagating a load error code) and returns 0; the timing loop of 100
encryptions only prints progress and timings and never changes the return
value (a failed encryption merely breaks out of the loop). -/
def run_benchmarks : Int :=
  match rsa_4096_load_key ['3','5'] ['5'] false with
  | .error e => rsa_error_code e
  | .ok _ => 0

/-- run_binary_verification (rsa_4096_tests.c, lines 327-421): loads the two
n = 35 keys, encrypts the bytes 01 02 03 04 with a 256-byte output buffer,
decrypts the result and compares sizes and contents. -/
def run_binary_verification : Int :=
  match rsa_4096_load_key ['3','5'] ['5'] false with
  | .error e => rsa_error_code e
  | .ok pub =>
    match rsa_4096_load_key ['3','5'] ['5'] true with
    | .error e => rsa_error_code e
    | .ok priv =>
      match rsa_4096_encrypt_binary pub [1, 2, 3, 4] 256 with
      | .error e => rsa_error_code e
      | .ok enc =>
        match rsa_4096_decrypt_binary priv enc 256 with
        | .error e => rsa_error_code e
        | .ok dec => if dec == [1, 2, 3, 4] then 0 else -1

/-- Command word: verify. -/
def cmd_verify : List Char := ['v','e','r','i','f','y']

/-- Command word: test. -/
def cmd_test : List Char := ['t','e','s','t']

/-- Command word: benchmark. -/
def cmd_benchmark : List Char := ['b','e','n','c','h','m','a','r','k']

/-- Command word: binary. -/
def cmd_binary : List Char := ['b','i','n','a','r','y']

/-- main (main.c, lines 15-39): usage error 1 when no command argument is
given, dispatch on the four known commands, and unknown-command error 1
otherwise.  argv is embedded as the list of argument strings. -/
def main_model : List (List Char) → Int
  | _prog :: cmd :: _ =>
      if cmd = cmd_verify then run_verification
      else if cmd = cmd_test then test_large_rsa_keys
      else if cmd = cmd_benchmark then run_benchmarks
      else if cmd = cmd_binary then run_binary_verification
      else 1
  | _ => 1

/-! Helper lemmas about the fuel-driven digit and bit decompositions. -/

theorem foldl_congr_mem {α β : Type} (l : List α) (f g : β → α → β) (a : β)
    (h : ∀ b x, x ∈ l → f b x = g b x) : l.foldl f a = l.foldl g a := by
  induction l generalizing a with
  | nil => rfl
  | cons x xs ih =>
      simp only [List.foldl_cons]
      rw [h a x (by simp)]
      exact ih _ (fun b y hy => h b y (by simp [hy]))

theorem sizeAux_lt_two_pow : ∀ fuel n, n ≤ fuel → n < 2 ^ sizeAux fuel n := by
  intro fuel
  induction fuel with
  | zero =>
      intro n hn
      have h : n = 0 := by omega
      subst h
      norm_num [sizeAux]
  | succ f ih =>
      intro n hn
      by_cases h0 : n = 0
      · subst h0; norm_num [sizeAux]
      · have hdiv : n / 2 ≤ f := by omega
        have hlt := ih (n / 2) hdiv
        simp only [sizeAux, h0, if_false]
        have h2 : 2 ^ (sizeAux f (n / 2) + 1) = 2 * 2 ^ sizeAux f (n / 2) := by ring
        omega

theorem bitLength_lt_two_pow (n : Nat) : n < 2 ^ bitLength n :=
  sizeAux_lt_two_pow n n le_rfl

theorem bitLength_pos {n : Nat} (hn : 0 < n) : 0 < bitLength n := by
  cases n with
  | zero => omega
  | succ m => simp [bitLength, sizeAux]

theorem bitLength_le_mont_k (n : Nat) : bitLength n ≤ mont_k n := by
  unfold mont_k LIMB_BITS
  omega

theorem lt_two_pow_mont_k (n : Nat) : n < 2 ^ mont_k n :=
  lt_of_lt_of_le (bitLength_lt_two_pow n)
    (Nat.pow_le_pow_right (by norm_num) (bitLength_le_mont_k n))

theorem mont_k_pos {n : Nat} (hn : 0 < n) : 0 < mont_k n := by
  have := bitLength_pos hn
  unfold mont_k LIMB_BITS
  omega

theorem natDigitsLSB_foldr {base : Nat} (hb : 2 ≤ base) :
    ∀ fuel n, n ≤ fuel →
      (natDigitsLSB base fuel n).foldr (fun d v => v * base + d) 0 = n := by
  intro fuel
  induction fuel with
  | zero =>
      intro n hn
      have h : n = 0 := by omega
      subst h
      simp [natDigitsLSB]
  | succ f ih =>
      intro n hn
      by_cases h0 : n = 0
      · subst h0; simp [natDigitsLSB]
      · have hdiv : n / base ≤ f :=
          Nat.lt_succ_iff.mp
            (Nat.lt_of_lt_of_le (Nat.div_lt_self (by omega) (by omega)) hn)
        simp only [natDigitsLSB, h0, if_false, List.foldr_cons]
        rw [ih (n / base) hdiv, Nat.mul_comm (n / base) base]
        exact Nat.div_add_mod n base

theorem valBE_natToBase {base : Nat} (hb : 2 ≤ base) (n : Nat) :
    valBE base (natToBase base n) = n := by
  unfold valBE natToBase
  rw [List.foldl_reverse]
  exact natDigitsLSB_foldr hb n n le_rfl

theorem natDigitsLSB_length_le {base : Nat} (hb : 2 ≤ base) :
    ∀ fuel n L, n ≤ fuel → n < base ^ L → (natDigitsLSB base fuel n).length ≤ L := by
  intro fuel
  induction fuel with
  | zero =>
      intro n L hn hL
      have h : n = 0 := by omega
      subst h
      simp [natDigitsLSB]
  | succ f ih =>
      intro n L hn hL
      by_cases h0 : n = 0
      · subst h0; simp [natDigitsLSB]
      · have hL0 : L ≠ 0 := by
          intro h
          subst h
          simp only [pow_zero] at hL
          omega
        obtain ⟨M, rfl⟩ : ∃ M, L = M + 1 := ⟨L - 1, by omega⟩
        have hdiv : n / base ≤ f :=
          Nat.lt_succ_iff.mp
            (Nat.lt_of_lt_of_le (Nat.div_lt_self (by omega) (by omega)) hn)
        have hpow : n / base < base ^ M := by
          rw [Nat.div_lt_iff_lt_mul (by omega : 0 < base)]
          calc n < base ^ (M + 1) := hL
          _ = base ^ M * base := by ring
        simp only [natDigitsLSB, h0, if_false, List.length_cons]
        exact Nat.succ_le_succ (ih (n / base) M hdiv hpow)

theorem natDigitsLSB_mem_lt {base : Nat} (hb : 0 < base) :
    ∀ fuel n d, d ∈ natDigitsLSB base fuel n → d < base := by
  intro fuel
  induction fuel with
  | zero => intro n d hd; simp [natDigitsLSB] at hd
  | succ f ih =>
      intro n d hd
      by_cases h0 : n = 0
      · subst h0; simp [natDigitsLSB] at hd
      · simp only [natDigitsLSB, h0, if_false, List.mem_cons] at hd
        rcases hd with h | h
        · subst h; exact Nat.mod_lt _ hb
        · exact ih _ _ h

theorem natDigitsLSB_ne_nil {base fuel n : Nat} (h0 : 0 < n) (hf : n ≤ fuel) :
    natDigitsLSB base fuel n ≠ [] := by
  cases fuel with
  | zero => omega
  | succ f =>
      have hne : n ≠ 0 := by omega
      simp [natDigitsLSB, hne]

theorem parse_decimal_natToDecChars (m : Nat) :
    parse_decimal (natToDecChars m) = .ok m := by
  by_cases h0 : m = 0
  · subst h0; decide
  · have hdig : natDigitsLSB 10 m m ≠ [] :=
      natDigitsLSB_ne_nil (Nat.pos_of_ne_zero h0) le_rfl
    have hnb : natToBase 10 m ≠ [] := by simpa [natToBase] using hdig
    have hne : natToDecChars m ≠ [] := by
      simp only [natToDecChars, h0, if_false, ne_eq, List.map_eq_nil_iff]
      exact hnb
    have hall : ∀ c ∈ natToDecChars m, c.isDigit = true := by
      intro c hc
      simp only [natToDecChars, h0, if_false, List.mem_map] at hc
      obtain ⟨d, hd, rfl⟩ := hc
      have hdlt : d < 10 :=
        natDigitsLSB_mem_lt (by norm_num) m m d
          (by simpa [natToBase, List.mem_reverse] using hd)
      interval_cases d <;> decide
    simp only [parse_decimal]
    rw [if_neg (by simpa [List.isEmpty_iff] using hne)]
    rw [if_pos (by rw [List.all_eq_true]; exact hall)]
    congr 1
    simp only [natToDecChars, h0, if_false]
    rw [List.foldl_map]
    rw [foldl_congr_mem _ _ (fun acc d => acc * 10 + d) 0 ?_]
    · exact valBE_natToBase (by norm_num) m
    · intro b d hd
      have hdlt : d < 10 :=
        natDigitsLSB_mem_lt (by norm_num) m m d
          (by simpa [natToBase, List.mem_reverse] using hd)
      have hchar : (digitChar10 d).toNat - 48 = d := by
        interval_cases d <;> decide
      rw [hchar]

theorem natToHexChars_ne_nil (v : Nat) : natToHexChars v ≠ [] := by
  by_cases h0 : v = 0
  · subst h0; decide
  · simp only [natToHexChars, h0, if_false, ne_eq, List.map_eq_nil_iff]
    exact fun h => natDigitsLSB_ne_nil (Nat.pos_of_ne_zero h0) le_rfl
      (by simpa [natToBase] using h)

theorem natToHexChars_length_le {v cap : Nat} (hcap : 0 < cap) (hv : v < 16 ^ cap) :
    (natToHexChars v).length ≤ cap := by
  by_cases h0 : v = 0
  · subst h0; simpa [natToHexChars] using hcap
  · simp only [natToHexChars, h0, if_false, List.length_map, natToBase,
      List.length_reverse]
    exact natDigitsLSB_length_le (by norm_num) v v cap le_rfl hv

theorem bitsLSBAux_foldr : ∀ fuel n, n ≤ fuel →
    (bitsLSBAux fuel n).foldr (fun bit v => bitVal v bit) 0 = n := by
  intro fuel
  induction fuel with
  | zero =>
      intro n hn
      have h : n = 0 := by omega
      subst h
      simp [bitsLSBAux]
  | succ f ih =>
      intro n hn
      by_cases h0 : n = 0
      · subst h0; simp [bitsLSBAux]
      · have hdiv : n / 2 ≤ f := by omega
        simp only [bitsLSBAux, h0, if_false, List.foldr_cons]
        rw [ih (n / 2) hdiv]
        rcases Nat.mod_two_eq_zero_or_one n with h | h <;>
          simp only [bitVal, h, Nat.reduceBEq, cond_false, cond_true] <;> omega

theorem bitsMSB_foldl (e : Nat) : (bitsMSB e).foldl bitVal 0 = e := by
  unfold bitsMSB bitsLSB
  rw [List.foldl_reverse]
  exact bitsLSBAux_foldr e e le_rfl

theorem bitsMSB_ne_nil {e : Nat} (he : 0 < e) : bitsMSB e ≠ [] := by
  unfold bitsMSB bitsLSB
  cases e with
  | zero => omega
  | succ m => simp [bitsLSBAux]

/-! Correctness of the binary-lifting modular inverse and the derived n_prime. -/

theorem invOdd_lt (n : Nat) : ∀ k, invOdd n k < 2 ^ k := by
  intro k
  induction k with
  | zero => simp [invOdd]
  | succ j ih =>
      show (if n * invOdd n j % 2 ^ (j+1) = 1 then invOdd n j
            else invOdd n j + 2 ^ j) < 2 ^ (j+1)
      have h2 : 2 ^ (j+1) = 2 ^ j + 2 ^ j := by ring
      split <;> omega

theorem mod_double_cases {p r : Nat} (hp : 0 < p) (hr : r < 2 * p)
    (hmod : r % p = 1 % p) (hne : r ≠ 1) : (r + p) % (2 * p) = 1 % (2 * p) := by
  have hdm := Nat.div_add_mod r p
  have hdiv2 : r / p < 2 := by
    rw [Nat.div_lt_iff_lt_mul hp]
    omega
  by_cases hp1 : p = 1
  · subst hp1
    have h0 : r = 0 := by omega
    subst h0
    norm_num
  · have h1p : 1 % p = 1 := Nat.mod_eq_of_lt (by omega)
    rw [h1p] at hmod
    rw [hmod] at hdm
    rcases Nat.le_one_iff_eq_zero_or_eq_one.mp (Nat.lt_succ_iff.mp hdiv2) with h | h
    · rw [h, Nat.mul_zero, Nat.zero_add] at hdm
      exact absurd hdm.symm hne
    · rw [h, Nat.mul_one] at hdm
      have harr : r + p = 1 + 2 * p := by omega
      rw [harr, Nat.add_mod_right]

theorem invOdd_mul_mod {n : Nat} (hodd : n % 2 = 1) :
    ∀ k, n * invOdd n k % 2 ^ k = 1 % 2 ^ k := by
  intro k
  induction k with
  | zero => simp [invOdd]
  | succ j ih =>
      show n * (if n * invOdd n j % 2 ^ (j+1) = 1 then invOdd n j
                else invOdd n j + 2 ^ j) % 2 ^ (j+1) = 1 % 2 ^ (j+1)
      have hP2 : (2:Nat) ≤ 2 ^ (j+1) := by
        calc (2:Nat) = 2 ^ 1 := (pow_one 2).symm
        _ ≤ 2 ^ (j+1) := Nat.pow_le_pow_right (by norm_num) (by omega)
      split
      case isTrue h => rw [h, Nat.mod_eq_of_lt (by omega : (1:Nat) < 2 ^ (j+1))]
      case isFalse h =>
        rw [pow_succ' 2 j] at h ⊢
        set p := 2 ^ j with hpdef
        have hppos : 0 < p := pow_pos (by norm_num) j
        have hsplit : n * (invOdd n j + p) = (n * invOdd n j % (2 * p) + p)
            + (n / 2) * (2 * p) + (n * invOdd n j / (2 * p)) * (2 * p) := by
          have e1 : n * (invOdd n j + p) = n * invOdd n j + n * p := by ring
          have e2 : n * p = (n / 2) * (2 * p) + p := by
            have hn2 : n = 2 * (n / 2) + 1 := by omega
            calc n * p = (2 * (n / 2) + 1) * p := by rw [← hn2]
            _ = (n / 2) * (2 * p) + p := by ring
          have e3 : 2 * p * (n * invOdd n j / (2 * p)) + n * invOdd n j % (2 * p)
              = n * invOdd n j := Nat.div_add_mod _ _
          have e4 : 2 * p * (n * invOdd n j / (2 * p))
              = (n * invOdd n j / (2 * p)) * (2 * p) := by ring
          omega
        rw [hsplit, Nat.add_mul_mod_self_right, Nat.add_mul_mod_self_right]
        apply mod_double_cases hppos (Nat.mod_lt _ (by omega))
        · rw [Nat.mod_mod_of_dvd _ (dvd_mul_left p 2)]
          exact ih
        · exact h

theorem n_prime_cong {n k : Nat} (hodd : n % 2 = 1) (hk : 0 < k) :
    (n * (2 ^ k - invOdd n k) + 1) % 2 ^ k = 0 := by
  have hlt := invOdd_lt n k
  have hmul := invOdd_mul_mod hodd k
  have hP2 : (2:Nat) ≤ 2 ^ k := by
    calc (2:Nat) = 2 ^ 1 := (pow_one 2).symm
    _ ≤ 2 ^ k := Nat.pow_le_pow_right (by norm_num) hk
  have h1 : (1 : Nat) % 2 ^ k = 1 := Nat.mod_eq_of_lt (by omega)
  rw [h1] at hmul
  set R := 2 ^ k with hR
  set X := invOdd n k with hX
  have hkey : n * (R - X) + 1 + n * X = n * R + 1 := by
    have hXR : X ≤ R := le_of_lt hlt
    have hdist : n * (R - X) + n * X = n * R := by
      rw [← Nat.mul_add, Nat.sub_add_cancel hXR]
    omega
  have hmod : (n * (R - X) + 1 + n * X) % R = (n * R + 1) % R := by rw [hkey]
  rw [Nat.add_mod (n * (R - X) + 1) (n * X) R, hmul, Nat.mul_comm n R,
    Nat.mul_add_mod, h1] at hmod
  have haR : (n * (R - X) + 1) % R < R := Nat.mod_lt _ (by omega)
  by_cases hc : (n * (R - X) + 1) % R + 1 < R
  · rw [Nat.mod_eq_of_lt hc] at hmod
    omega
  · have hsum : (n * (R - X) + 1) % R + 1 = R := by omega
    rw [hsum, Nat.mod_self] at hmod
    omega

theorem coprime_two_pow_odd {n : Nat} (hodd : n % 2 = 1) (k : Nat) :
    Nat.Coprime (2 ^ k) n := by
  apply Nat.Coprime.pow_left
  rw [Nat.Prime.coprime_iff_not_dvd Nat.prime_two]
  intro hdvd
  obtain ⟨c, rfl⟩ := hdvd
  omega

theorem modeq_cancel_pow_two {n k a b : Nat} (hodd : n % 2 = 1)
    (h : a * 2 ^ k ≡ b * 2 ^ k [MOD n]) : a ≡ b [MOD n] :=
  Nat.ModEq.cancel_right_of_coprime (coprime_two_pow_odd hodd k).symm h

/-! Facts about the built Montgomery context and REDC multiplication. -/

theorem montgomery_ctx_init_active {n : Nat} (hodd : n % 2 = 1) (h1 : 1 < n) :
    montgomery_ctx_init n =
      { is_active := true
        k := mont_k n
        n_prime := 2 ^ mont_k n - invOdd n (mont_k n)
        r_mod_n := 2 ^ mont_k n % n
        r2_mod_n := 2 ^ mont_k n * 2 ^ mont_k n % n } := by
  unfold montgomery_ctx_init
  rw [if_pos ⟨hodd, h1⟩]

theorem montgomery_ctx_init_not_active {n : Nat} (h : ¬(n % 2 = 1 ∧ 1 < n)) :
    montgomery_ctx_init n = mont_ctx_inactive := by
  unfold montgomery_ctx_init
  rw [if_neg h]

theorem mont_mul_lt {n a b : Nat} (ctx : mont_ctx_t) (hn : 0 < n)
    (hR : n < 2 ^ ctx.k) (ha : a < n) (hb : b < n) : mont_mul n ctx a b < n := by
  simp only [mont_mul]
  set R := 2 ^ ctx.k with hRdef
  have hRpos : 0 < R := pow_pos (by norm_num) _
  set t := a * b with ht
  set m := t % R * ctx.n_prime % R with hm
  have hmlt : m < R := Nat.mod_lt _ hRpos
  have htlt : t < n * R := by
    have h1 : t < n * n := mul_lt_mul'' ha hb (Nat.zero_le a) (Nat.zero_le b)
    have h2 : n * n ≤ n * R := Nat.mul_le_mul_left n (le_of_lt hR)
    omega
  have hmn : m * n < R * n := mul_lt_mul_of_pos_right hmlt hn
  rw [Nat.mul_comm R n] at hmn
  have hu : (t + m * n) / R < 2 * n := by
    rw [Nat.div_lt_iff_lt_mul hRpos]
    have h3 : 2 * n * R = n * R + n * R := by ring
    omega
  split <;> omega

theorem mont_mul_modeq {n : Nat} (ctx : mont_ctx_t) (a b : Nat)
    (hnp : (n * ctx.n_prime + 1) % 2 ^ ctx.k = 0) :
    mont_mul n ctx a b * 2 ^ ctx.k ≡ a * b [MOD n] := by
  simp only [mont_mul]
  set R := 2 ^ ctx.k with hRdef
  have hRpos : 0 < R := pow_pos (by norm_num) _
  set t := a * b with ht
  set m := t % R * ctx.n_prime % R with hm
  have hdvd : R ∣ t + m * n := by
    have h1 : m ≡ t * ctx.n_prime [MOD R] :=
      (Nat.mod_modEq (t % R * ctx.n_prime) R).trans
        ((Nat.mod_modEq t R).mul_right ctx.n_prime)
    have h3 : t + m * n ≡ t + t * ctx.n_prime * n [MOD R] :=
      (h1.mul_right n).add_left t
    have h4 : t + t * ctx.n_prime * n = t * (n * ctx.n_prime + 1) := by ring
    have h5 : R ∣ n * ctx.n_prime + 1 := Nat.dvd_of_mod_eq_zero hnp
    have h6 : t * (n * ctx.n_prime + 1) ≡ 0 [MOD R] :=
      (Nat.modEq_zero_iff_dvd).mpr (h5.mul_left t)
    exact (Nat.modEq_zero_iff_dvd).mp (h3.trans (h4 ▸ h6))
  have hu : (t + m * n) / R * R = t + m * n := Nat.div_mul_cancel hdvd
  have hun : (t + m * n) / R * R ≡ t [MOD n] := by
    rw [hu]
    have hmn : m * n ≡ 0 [MOD n] := (Nat.modEq_zero_iff_dvd).mpr (dvd_mul_left n m)
    calc t + m * n ≡ t + 0 [MOD n] := hmn.add_left t
    _ = t := by ring
  split
  case isTrue h =>
      have hsub : ((t + m * n) / R - n) % n = (t + m * n) / R % n := by
        conv_rhs => rw [← Nat.sub_add_cancel h]
        rw [Nat.add_mod_right]
      exact (Nat.ModEq.mul_right R hsub).trans hun
  case isFalse h => exact hun

/-! The two square-and-multiply walks compute the same modular power. -/

theorem sqmul_fold_mod {n b0 : Nat} (hn : 0 < n) (hb : b0 < n) :
    ∀ (bits : List Bool) (acc v : Nat), acc % n = b0 ^ v % n →
      (bits.foldl (sqmul_step n b0) acc) % n = b0 ^ (bits.foldl bitVal v) % n := by
  intro bits
  induction bits with
  | nil => intro acc v h; exact h
  | cons bit rest ih =>
      intro acc v h
      simp only [List.foldl_cons]
      have hsqmod : acc * acc % n = b0 ^ (2 * v) % n := by
        rw [Nat.mul_mod, h, ← Nat.mul_mod, ← pow_add, two_mul]
      have hsq : (sqmul_step n b0 acc bit) % n = b0 ^ (bitVal v bit) % n := by
        cases bit with
        | false =>
            show acc * acc % n % n = b0 ^ (bitVal v false) % n
            rw [Nat.mod_mod_of_dvd _ dvd_rfl, hsqmod]
            simp [bitVal]
        | true =>
            show acc * acc % n * b0 % n % n = b0 ^ (bitVal v true) % n
            rw [Nat.mod_mod_of_dvd _ dvd_rfl, Nat.mul_mod, Nat.mod_mod_of_dvd _ dvd_rfl,
              hsqmod, ← Nat.mul_mod, ← pow_succ]
            simp [bitVal]
      exact ih _ _ hsq

theorem sqmul_fold_lt {n b0 : Nat} (hn : 0 < n) :
    ∀ (bits : List Bool) (acc : Nat), bits ≠ [] →
      (bits.foldl (sqmul_step n b0) acc) < n := by
  intro bits
  induction bits with
  | nil => intro acc h; exact absurd rfl h
  | cons bit rest ih =>
      intro acc h
      simp only [List.foldl_cons]
      by_cases hr : rest = []
      · subst hr
        simp only [List.foldl_nil]
        cases bit with
        | false => exact Nat.mod_lt _ hn
        | true => exact Nat.mod_lt _ hn
      · exact ih _ hr

theorem modexp_inactive_eval {b e n : Nat} (ctx : mont_ctx_t) (hn : 0 < n) (he : 0 < e)
    (hctx : ctx.is_active = false) :
    modexp b e n ctx = .ok ((b % n) ^ e % n) := by
  have hn0 : n ≠ 0 := by omega
  have he0 : e ≠ 0 := by omega
  simp only [modexp, hn0, if_false, he0, hctx, Bool.false_eq_true]
  congr 1
  have hfold := sqmul_fold_mod hn (Nat.mod_lt b hn) (bitsMSB e) 1 0 (by simp)
  rw [bitsMSB_foldl e] at hfold
  rw [← hfold]
  exact (Nat.mod_eq_of_lt (sqmul_fold_lt hn (bitsMSB e) 1 (bitsMSB_ne_nil he))).symm

theorem mont_fold_spec {n : Nat} (ctx : mont_ctx_t) {B bM : Nat}
    (hodd : n % 2 = 1) (h1 : 1 < n) (hR : n < 2 ^ ctx.k)
    (hnp : (n * ctx.n_prime + 1) % 2 ^ ctx.k = 0)
    (hbM : bM < n) (hbMeq : bM ≡ B * 2 ^ ctx.k [MOD n]) :
    ∀ (bits : List Bool) (acc v : Nat), acc < n → acc ≡ B ^ v * 2 ^ ctx.k [MOD n] →
      (bits.foldl (mont_step n ctx bM) acc) < n ∧
      (bits.foldl (mont_step n ctx bM) acc) ≡ B ^ (bits.foldl bitVal v) * 2 ^ ctx.k [MOD n] := by
  intro bits
  induction bits with
  | nil => intro acc v hlt heq; exact ⟨hlt, heq⟩
  | cons bit rest ih =>
      intro acc v hlt heq
      have hn : 0 < n := by omega
      have hsqlt : mont_mul n ctx acc acc < n := mont_mul_lt ctx hn hR hlt hlt
      have hsqeq : mont_mul n ctx acc acc ≡ B ^ (2 * v) * 2 ^ ctx.k [MOD n] := by
        apply modeq_cancel_pow_two hodd
        calc mont_mul n ctx acc acc * 2 ^ ctx.k
            ≡ acc * acc [MOD n] := mont_mul_modeq ctx acc acc hnp
        _ ≡ (B ^ v * 2 ^ ctx.k) * (B ^ v * 2 ^ ctx.k) [MOD n] := heq.mul heq
        _ = (B ^ (2 * v) * 2 ^ ctx.k) * 2 ^ ctx.k := by
              rw [two_mul, pow_add]; ring
      simp only [List.foldl_cons]
      cases bit with
      | false =>
          have hstep : mont_step n ctx bM acc false = mont_mul n ctx acc acc := rfl
          rw [hstep]
          have hbit : bitVal v false = 2 * v := by simp [bitVal]
          rw [hbit]
          exact ih _ _ hsqlt hsqeq
      | true =>
          have hstep : mont_step n ctx bM acc true
              = mont_mul n ctx (mont_mul n ctx acc acc) bM := rfl
          rw [hstep]
          have hbit : bitVal v true = 2 * v + 1 := by simp [bitVal]
          rw [hbit]
          have hmlt : mont_mul n ctx (mont_mul n ctx acc acc) bM < n :=
            mont_mul_lt ctx hn hR hsqlt hbM
          have hmeq : mont_mul n ctx (mont_mul n ctx acc acc) bM
              ≡ B ^ (2 * v + 1) * 2 ^ ctx.k [MOD n] := by
            apply modeq_cancel_pow_two hodd
            calc mont_mul n ctx (mont_mul n ctx acc acc) bM * 2 ^ ctx.k
                ≡ mont_mul n ctx acc acc * bM [MOD n] := mont_mul_modeq ctx _ _ hnp
            _ ≡ (B ^ (2 * v) * 2 ^ ctx.k) * (B * 2 ^ ctx.k) [MOD n] := hsqeq.mul hbMeq
            _ = (B ^ (2 * v + 1) * 2 ^ ctx.k) * 2 ^ ctx.k := by
                  rw [pow_succ]; ring
          exact ih _ _ hmlt hmeq

theorem modexp_active_general {b e n : Nat} (ctx : mont_ctx_t)
    (hodd : n % 2 = 1) (h1 : 1 < n) (he : 0 < e)
    (hactive : ctx.is_active = true)
    (hR : n < 2 ^ ctx.k)
    (hnp : (n * ctx.n_prime + 1) % 2 ^ ctx.k = 0)
    (hr : ctx.r_mod_n = 2 ^ ctx.k % n)
    (hr2 : ctx.r2_mod_n = 2 ^ ctx.k * 2 ^ ctx.k % n) :
    modexp b e n ctx = .ok ((b % n) ^ e % n) := by
  have hn : 0 < n := by omega
  have hn0 : n ≠ 0 := by omega
  have he0 : e ≠ 0 := by omega
  simp only [modexp, hn0, if_false, he0, hactive, if_true]
  congr 1
  set b0 := b % n with hb0
  have hb0lt : b0 < n := Nat.mod_lt b hn
  set bM := mont_mul n ctx b0 ctx.r2_mod_n with hbMdef
  have hr2lt : ctx.r2_mod_n < n := by rw [hr2]; exact Nat.mod_lt _ hn
  have hbMlt : bM < n := mont_mul_lt ctx hn hR hb0lt hr2lt
  have hbMeq : bM ≡ b0 * 2 ^ ctx.k [MOD n] := by
    apply modeq_cancel_pow_two hodd
    calc bM * 2 ^ ctx.k ≡ b0 * ctx.r2_mod_n [MOD n] := mont_mul_modeq ctx _ _ hnp
    _ ≡ b0 * (2 ^ ctx.k * 2 ^ ctx.k) [MOD n] := by
          rw [hr2]
          exact (Nat.mod_modEq _ n).mul_left b0
    _ = (b0 * 2 ^ ctx.k) * 2 ^ ctx.k := by ring
  have hacc0lt : ctx.r_mod_n < n := by rw [hr]; exact Nat.mod_lt _ hn
  have hacc0eq : ctx.r_mod_n ≡ b0 ^ 0 * 2 ^ ctx.k [MOD n] := by
    rw [pow_zero, one_mul, hr]
    exact Nat.mod_modEq _ n
  obtain ⟨hrMlt, hrMeq⟩ := mont_fold_spec ctx hodd h1 hR hnp hbMlt hbMeq
    (bitsMSB e) ctx.r_mod_n 0 hacc0lt hacc0eq
  rw [bitsMSB_foldl e] at hrMeq
  set rM := (bitsMSB e).foldl (mont_step n ctx bM) ctx.r_mod_n with hrMdef
  have hfin : mont_mul n ctx rM 1 ≡ b0 ^ e [MOD n] := by
    apply modeq_cancel_pow_two hodd
    calc mont_mul n ctx rM 1 * 2 ^ ctx.k ≡ rM * 1 [MOD n] := mont_mul_modeq ctx _ _ hnp
    _ = rM := by ring
    _ ≡ b0 ^ e * 2 ^ ctx.k [MOD n] := hrMeq
  have hfinlt : mont_mul n ctx rM 1 < n := mont_mul_lt ctx hn hR hrMlt h1
  calc mont_mul n ctx rM 1 = mont_mul n ctx rM 1 % n := (Nat.mod_eq_of_lt hfinlt).symm
  _ = b0 ^ e % n := hfin

theorem modexp_eval {b e n : Nat} (hn : 0 < n) (he : 0 < e) :
    modexp b e n (montgomery_ctx_init n) = .ok ((b % n) ^ e % n) := by
  by_cases hc : n % 2 = 1 ∧ 1 < n
  · have hact := montgomery_ctx_init_active hc.1 hc.2
    apply modexp_active_general _ hc.1 hc.2 he
    · rw [hact]
    · rw [hact]
      exact lt_two_pow_mont_k n
    · rw [hact]
      exact n_prime_cong hc.1 (mont_k_pos hn)
    · rw [hact]
    · rw [hact]
  · rw [montgomery_ctx_init_not_active hc]
    exact modexp_inactive_eval _ hn he rfl

/-! Extraction lemmas for parsing and key loading. -/

theorem parse_decimal_error_eq {s : List Char} {err : rsa_error}
    (h : parse_decimal s = .error err) : err = .ParseError := by
  unfold parse_decimal at h
  split_ifs at h <;> exact (Except.error.inj h).symm

theorem load_key_ok {nT eT : List Char} {p : Bool} {key : rsa_4096_key_t}
    (h : rsa_4096_load_key nT eT p = .ok key) :
    0 < key.n ∧ 0 < key.exponent ∧ bitLength key.n ≤ RSA_MAX_MODULUS_BITS ∧
    key.mont_ctx = montgomery_ctx_init key.n ∧ key.is_private = p ∧
    parse_decimal nT = .ok key.n ∧ parse_decimal eT = .ok key.exponent := by
  unfold rsa_4096_load_key at h
  cases hn : parse_decimal nT with
  | error err => rw [hn] at h; exact Except.noConfusion h
  | ok n =>
    rw [hn] at h
    cases he : parse_decimal eT with
    | error err => rw [he] at h; exact Except.noConfusion h
    | ok e =>
      rw [he] at h
      simp only at h
      split_ifs at h with hcond
      have hkey := (Except.ok.inj h).symm
      subst hkey
      push_neg at hcond
      refine ⟨?_, ?_, ?_, rfl, rfl, rfl, rfl⟩
      · show 0 < n
        omega
      · show 0 < e
        omega
      · show bitLength n ≤ RSA_MAX_MODULUS_BITS
        omega

/-! Claim theorems. -/

/-- C1: for the RSA key with modulus 35 and public/private exponent 5, the
decimal messages 2, 3 and 4 encrypt to hex ciphertexts whose integer values
are 32, 33 and 9, and decrypting each ciphertext returns the original decimal
message text. -/
theorem rsa35_text_roundtrip :
    (rsa_4096_encrypt key35_pub ['2'] 1024 = .ok ['2','0']
      ∧ parse_hex ['2','0'] = .ok 32
      ∧ rsa_4096_decrypt key35_priv ['2','0'] 512 = .ok ['2'])
  ∧ (rsa_4096_encrypt key35_pub ['3'] 1024 = .ok ['2','1']
      ∧ parse_hex ['2','1'] = .ok 33
      ∧ rsa_4096_decrypt key35_priv ['2','1'] 512 = .ok ['3'])
  ∧ (rsa_4096_encrypt key35_pub ['4'] 1024 = .ok ['9']
      ∧ parse_hex ['9'] = .ok 9
      ∧ rsa_4096_decrypt key35_priv ['9'] 512 = .ok ['4']) := by
  decide

/-- C2: for every triple of base, exponent and modulus (odd or even modulus
alike, and degenerate moduli returning the same error), modexp through the
context built for the modulus and modexp through the inactive fallback context
return the same result. -/
theorem modexp_montgomery_fallback_agree (b e n : Nat) :
    modexp b e n (montgomery_ctx_init n) = modexp b e n mont_ctx_inactive := by
  rcases Nat.eq_zero_or_pos n with h0 | hn
  · subst h0; rfl
  · rcases Nat.eq_zero_or_pos e with he0 | he
    · subst he0
      have hn0 : n ≠ 0 := by omega
      simp [modexp, hn0]
    · rw [modexp_eval hn he, modexp_inactive_eval mont_ctx_inactive hn he rfl]

/-- C3 counterexample: under modulus 35 the modulus occupies a single byte,
the payload capacity L - 2 of the specified codec is not positive, and
encrypt_binary cannot form any block, so the claimed round trip on the bytes
01 02 03 04 fails already at encryption. -/
theorem binary_roundtrip_n35_false :
    binary_roundtrip key35_pub key35_priv [1, 2, 3, 4] 256 = .error .InvalidKey := by
  decide

/-- C3 amended: the binary round trip holds for keys whose modulus byte length
L is at least 3 so that the payload capacity L - 2 is positive; with
n = 16850989 = 4099 * 4111 (e = 7, d = 4812223, L = 4, payload capacity 2) the
bytes 01 02 03 04 are reproduced exactly, as is data containing embedded zero
bytes and data whose length is not aligned to the block boundary (short final
block). -/
theorem binary_roundtrip_large_modulus :
    binary_roundtrip keyBin_pub keyBin_priv [1, 2, 3, 4] 256 = .ok [1, 2, 3, 4]
  ∧ binary_roundtrip keyBin_pub keyBin_priv [0, 170, 0, 0, 5] 256 = .ok [0, 170, 0, 0, 5]
  ∧ binary_roundtrip keyBin_pub keyBin_priv [1, 2, 3, 4, 5] 256 = .ok [1, 2, 3, 4, 5] := by
  decide

/-- C4: with modulus 143, public exponent 7 and private exponent 103,
decrypting the encryption of 42 returns 42, and encrypting the decryption of
the hex ciphertext 2a (the integer 42) returns that ciphertext again: the two
transforms are mutually inverse on this message. -/
theorem rsa143_mutual_inverse :
    (rsa_4096_encrypt key143_pub ['4','2'] 1024 = .ok ['5','1']
      ∧ rsa_4096_decrypt key143_priv ['5','1'] 512 = .ok ['4','2'])
  ∧ (rsa_4096_decrypt key143_priv ['2','a'] 512 = .ok ['3']
      ∧ rsa_4096_encrypt key143_pub ['3'] 1024 = .ok ['2','a']) := by
  decide

/-- C8: after rsa_4096_init the key is in the well-defined empty state: zero
modulus, zero exponent and an inactive Montgomery context, so the un-loaded
key is detectably invalid through bigint_is_zero. -/
theorem init_empty_state :
    rsa_4096_init.n = 0 ∧ rsa_4096_init.exponent = 0
  ∧ rsa_4096_init.mont_ctx.is_active = false
  ∧ bigint_is_zero rsa_4096_init.n = true := by
  decide

/-- C5: for every loaded key, encrypting the message equal to modulus minus 1
succeeds (with a capacity that holds any value below the modulus), encrypting
any message whose integer is at least the modulus fails with MessageTooLarge,
the empty decimal string fails with ParseError, and a zero-capacity output
buffer fails with BufferTooSmall producing no output. -/
theorem encrypt_boundary_behavior (nT eT : List Char) (p : Bool) (key : rsa_4096_key_t)
    (hload : rsa_4096_load_key nT eT p = .ok key)
    (cap : Nat) (hcap : key.n ≤ 16 ^ cap) (hcap1 : 0 < cap) :
    (∃ s, rsa_4096_encrypt key (natToDecChars (key.n - 1)) cap = .ok s)
  ∧ (∀ m, key.n ≤ m →
      rsa_4096_encrypt key (natToDecChars m) cap = .error .MessageTooLarge)
  ∧ rsa_4096_encrypt key [] cap = .error .ParseError
  ∧ rsa_4096_encrypt key (natToDecChars (key.n - 1)) 0 = .error .BufferTooSmall := by
  obtain ⟨hn, he, hbits, hctx, hpriv, hpn, hpe⟩ := load_key_ok hload
  have hm1 : key.n - 1 < key.n := by omega
  have hparse := parse_decimal_natToDecChars (key.n - 1)
  have hmodexp : modexp (key.n - 1) key.exponent key.n key.mont_ctx
      = .ok (((key.n - 1) % key.n) ^ key.exponent % key.n) := by
    rw [hctx]
    exact modexp_eval hn he
  set c := ((key.n - 1) % key.n) ^ key.exponent % key.n with hc
  have hclt : c < key.n := Nat.mod_lt _ hn
  have hlen : (natToHexChars c).length ≤ cap :=
    natToHexChars_length_le hcap1 (by omega)
  have hlenpos : 0 < (natToHexChars c).length :=
    List.length_pos.mpr (natToHexChars_ne_nil c)
  refine ⟨⟨natToHexChars c, ?_⟩, ?_, ?_, ?_⟩
  · simp only [rsa_4096_encrypt, hparse, hm1, if_true, hmodexp, bigint_to_hex]
    rw [if_pos hlen]
  · intro m hm
    have hparsem := parse_decimal_natToDecChars m
    simp only [rsa_4096_encrypt, hparsem]
    rw [if_neg (by omega : ¬ m < key.n)]
  · rfl
  · simp only [rsa_4096_encrypt, hparse, hm1, if_true, hmodexp, bigint_to_hex]
    rw [if_neg (by omega)]

/-- C5 witness: the loaded key n = 35, e = 5 with capacity 2 (35 is at most
16 squared), boundary messages 34 and 35, the empty string and a zero
capacity. -/
theorem encrypt_boundary_behavior_witness :
    (∃ s, rsa_4096_encrypt key35_pub (natToDecChars 34) 2 = .ok s)
  ∧ rsa_4096_encrypt key35_pub (natToDecChars 35) 2 = .error .MessageTooLarge
  ∧ rsa_4096_encrypt key35_pub [] 2 = .error .ParseError
  ∧ rsa_4096_encrypt key35_pub (natToDecChars 34) 0 = .error .BufferTooSmall := by
  obtain ⟨h1, h2, h3, h4⟩ :=
    encrypt_boundary_behavior ['3','5'] ['5'] false key35_pub rfl 2
      (by decide) (by decide)
  exact ⟨h1, h2 35 (by decide), h3, h4⟩

/-- C6: load_key fails with ParseError when the modulus text or the exponent
text is malformed, fails with InvalidKey when the parsed modulus is zero, the
parsed exponent is zero or the modulus bit length exceeds the configured
maximum, and otherwise succeeds storing the parsed modulus, the parsed
exponent, the role flag and the Montgomery context built from the modulus. -/
theorem load_key_spec (nT eT : List Char) (p : Bool) :
    (∀ err, parse_decimal nT = .error err →
        rsa_4096_load_key nT eT p = .error .ParseError)
  ∧ (∀ n err, parse_decimal nT = .ok n → parse_decimal eT = .error err →
        rsa_4096_load_key nT eT p = .error .ParseError)
  ∧ (∀ n e, parse_decimal nT = .ok n → parse_decimal eT = .ok e →
        ((n = 0 ∨ e = 0 ∨ RSA_MAX_MODULUS_BITS < bitLength n →
            rsa_4096_load_key nT eT p = .error .InvalidKey)
          ∧ (¬(n = 0 ∨ e = 0 ∨ RSA_MAX_MODULUS_BITS < bitLength n) →
            rsa_4096_load_key nT eT p = .ok ⟨n, e, p, montgomery_ctx_init n⟩))) := by
  refine ⟨?_, ?_, ?_⟩
  · intro err h
    have herr := parse_decimal_error_eq h
    subst herr
    simp only [rsa_4096_load_key, h]
  · intro n err hn he
    have herr := parse_decimal_error_eq he
    subst herr
    simp only [rsa_4096_load_key, hn, he]
  · intro n e hn he
    constructor
    · intro hbad
      simp only [rsa_4096_load_key, hn, he]
      rw [if_pos hbad]
    · intro hgood
      simp only [rsa_4096_load_key, hn, he]
      rw [if_neg hgood]

/-- C6 witness: a well-formed key text loads to the stored record, malformed
modulus text gives ParseError, and a zero modulus gives InvalidKey. -/
theorem load_key_spec_witness :
    rsa_4096_load_key ['3','5'] ['5'] false = .ok ⟨35, 5, false, montgomery_ctx_init 35⟩
  ∧ rsa_4096_load_key ['x'] ['5'] false = .error .ParseError
  ∧ rsa_4096_load_key ['0'] ['5'] false = .error .InvalidKey := by
  refine ⟨?_, ?_, ?_⟩
  · exact ((load_key_spec ['3','5'] ['5'] false).2.2 35 5 rfl rfl).2 (by decide)
  · exact (load_key_spec ['x'] ['5'] false).1 .ParseError rfl
  · exact ((load_key_spec ['0'] ['5'] false).2.2 0 5 rfl rfl).1 (by decide)

/-- C7: after a key is built by load_key, its context is active only if the
modulus is odd and greater than 1; and whenever the context is inactive,
modexp through it computes exactly what the direct divide-based fallback
(inactive context) computes, for every base and exponent. -/
theorem mont_ctx_active_flag (nT eT : List Char) (p : Bool) (key : rsa_4096_key_t)
    (hload : rsa_4096_load_key nT eT p = .ok key) :
    (key.mont_ctx.is_active = true → key.n % 2 = 1 ∧ 1 < key.n)
  ∧ (key.mont_ctx.is_active = false →
      ∀ b e, modexp b e key.n key.mont_ctx = modexp b e key.n mont_ctx_inactive) := by
  obtain ⟨hn, he, hbits, hctx, hpriv, hpn, hpe⟩ := load_key_ok hload
  constructor
  · intro hact
    by_contra hc
    rw [hctx, montgomery_ctx_init_not_active hc] at hact
    exact absurd hact (by decide)
  · intro hinact b e
    by_cases hc : key.n % 2 = 1 ∧ 1 < key.n
    · rw [hctx, montgomery_ctx_init_active hc.1 hc.2] at hinact
      simp at hinact
    · rw [hctx, montgomery_ctx_init_not_active hc]

/-- C7 witness: the odd loaded modulus 35 and the even loaded modulus 10 with
a concrete modexp instance through both paths. -/
theorem mont_ctx_active_flag_witness :
    (35 % 2 = 1 ∧ 1 < 35)
  ∧ modexp 7 3 10 (montgomery_ctx_init 10) = modexp 7 3 10 mont_ctx_inactive := by
  constructor
  · exact (mont_ctx_active_flag ['3','5'] ['5'] false key35_pub rfl).1 rfl
  · exact (mont_ctx_active_flag ['1','0'] ['3'] false
      ⟨10, 3, false, montgomery_ctx_init 10⟩ rfl).2 rfl 7 3

/-- C9: run_verification propagates a failed key load as that load error code
without running the vectors; with both keys loaded it skips the (dead)
zero-key checks and returns 0 exactly when all three test vectors pass and -1
otherwise; the hardcoded harness run returns 0. -/
theorem run_verification_spec :
    (∀ nT eT dT err, rsa_4096_load_key nT eT false = .error err →
        run_verification_gen nT eT dT = rsa_error_code err)
  ∧ (∀ nT eT dT pub err, rsa_4096_load_key nT eT false = .ok pub →
        rsa_4096_load_key nT dT true = .error err →
        run_verification_gen nT eT dT = rsa_error_code err)
  ∧ (∀ nT eT dT pub priv, rsa_4096_load_key nT eT false = .ok pub →
        rsa_4096_load_key nT dT true = .ok priv →
        run_verification_gen nT eT dT =
          if verify_vector pub priv ['2'] 32 = true
             ∧ verify_vector pub priv ['3'] 33 = true
             ∧ verify_vector pub priv ['4'] 9 = true then 0 else -1)
  ∧ run_verification = 0 := by
  refine ⟨?_, ?_, ?_, by decide⟩
  · intro nT eT dT err h
    simp only [run_verification_gen, h]
  · intro nT eT dT pub err hpub hpriv
    simp only [run_verification_gen, hpub, hpriv]
  · intro nT eT dT pub priv hpub hpriv
    obtain ⟨hn1, he1, _, _, _, _, _⟩ := load_key_ok hpub
    obtain ⟨hn2, he2, _, _, _, _, _⟩ := load_key_ok hpriv
    have hz1 : bigint_is_zero pub.n = false := by
      simp only [bigint_is_zero, beq_eq_false_iff_ne, ne_eq]
      omega
    have hz1e : bigint_is_zero pub.exponent = false := by
      simp only [bigint_is_zero, beq_eq_false_iff_ne, ne_eq]
      omega
    have hz2 : bigint_is_zero priv.n = false := by
      simp only [bigint_is_zero, beq_eq_false_iff_ne, ne_eq]
      omega
    have hz2e : bigint_is_zero priv.exponent = false := by
      simp only [bigint_is_zero, beq_eq_false_iff_ne, ne_eq]
      omega
    cases hv2 : verify_vector pub priv ['2'] 32 <;>
      cases hv3 : verify_vector pub priv ['3'] 33 <;>
        cases hv4 : verify_vector pub priv ['4'] 9 <;>
          simp [run_verification_gen, hpub, hpriv, hz1, hz1e, hz2, hz2e,
            List.filter, hv2, hv3, hv4]

/-- C9 witness: the hardcoded key text loads to the two n = 35 keys and the
return value is the vector conjunction of the three verified messages. -/
theorem run_verification_spec_witness :
    run_verification_gen ['3','5'] ['5'] ['5'] =
      if verify_vector key35_pub key35_priv ['2'] 32 = true
         ∧ verify_vector key35_pub key35_priv ['3'] 33 = true
         ∧ verify_vector key35_pub key35_priv ['4'] 9 = true then 0 else -1 :=
  run_verification_spec.2.2.1 ['3','5'] ['5'] ['5'] key35_pub key35_priv rfl rfl

/-- C10: main returns the usage error 1 when no command argument is present,
returns 1 for a command other than the four known words, and dispatches
verify, test, benchmark and binary to the respective runners, returning their
results. -/
theorem main_dispatch_spec :
    (∀ argv, argv.length < 2 → main_model argv = 1)
  ∧ (∀ prog cmd rest, cmd ≠ cmd_verify → cmd ≠ cmd_test → cmd ≠ cmd_benchmark →
      cmd ≠ cmd_binary → main_model (prog :: cmd :: rest) = 1)
  ∧ (∀ prog rest, main_model (prog :: cmd_verify :: rest) = run_verification)
  ∧ (∀ prog rest, main_model (prog :: cmd_test :: rest) = test_large_rsa_keys)
  ∧ (∀ prog rest, main_model (prog :: cmd_benchmark :: rest) = run_benchmarks)
  ∧ (∀ prog rest, main_model (prog :: cmd_binary :: rest) = run_binary_verification) := by
  refine ⟨?_, ?_, ?_, ?_, ?_, ?_⟩
  · intro argv h
    rcases argv with _ | ⟨x, _ | ⟨y, rest⟩⟩
    · rfl
    · rfl
    · simp only [List.length_cons] at h
      omega
  · intro prog cmd rest h1 h2 h3 h4
    simp only [main_model]
    rw [if_neg h1, if_neg h2, if_neg h3, if_neg h4]
  · intro prog rest
    simp [main_model]
  · intro prog rest
    simp only [main_model]
    rw [if_neg (by decide), if_true]
  · intro prog rest
    simp only [main_model]
    rw [if_neg (by decide), if_neg (by decide), if_true]
  · intro prog rest
    simp only [main_model]
    rw [if_neg (by decide), if_neg (by decide), if_neg (by decide), if_true]

/-- C10 witness: concrete invocations of every dispatch case. -/
theorem main_dispatch_spec_witness :
    main_model [] = 1
  ∧ main_model [['r','s','a'], ['f','o','o']] = 1
  ∧ main_model [['r','s','a'], cmd_verify] = run_verification
  ∧ main_model [['r','s','a'], cmd_test] = test_large_rsa_keys
  ∧ main_model [['r','s','a'], cmd_benchmark] = run_benchmarks
  ∧ main_model [['r','s','a'], cmd_binary] = run_binary_verification := by
  obtain ⟨h1, h2, h3, h4, h5, h6⟩ := main_dispatch_spec
  exact ⟨h1 [] (by decide),
    h2 ['r','s','a'] ['f','o','o'] [] (by decide) (by decide) (by decide) (by decide),
    h3 ['r','s','a'] [], h4 ['r','s','a'] [], h5 ['r','s','a'] [], h6 ['r','s','a'] []⟩

/-- C2 witness: a concrete triple with an odd modulus, evaluated through both
paths. -/
theorem modexp_montgomery_fallback_agree_witness :
    modexp 3 4 35 (montgomery_ctx_init 35) = modexp 3 4 35 mont_ctx_inactive :=
  modexp_montgomery_fallback_agree 3 4 35
